import Mathlib

/-!
Shallow embedding of the batching layer of `data_utils.py` (the
`transformer-xl` data pipeline): the sharding helper `chunk`, the flat-stream
batcher `LMOrderedIterator`, the sentence-multiplexing batcher
`LMShuffledIterator` and the file-multiplexing batcher `LMMultiFileIterator`,
together with proofs about the specified properties of each.

Conventions:
* token ids are `Int`, so the `-1` padding sentinel of the streamed variants
  is representable (real ids are nonnegative);
* a python slice `l[a:b]` with nonnegative bounds clamps at the length of the
  sequence, which is `(l.take b).drop a` on lists;
* python `while` loops are embedded with an explicit fuel argument bounding
  the number of iterations; every call site passes a fuel that provably
  dominates the actual iteration count;
* the tensors of the streamed variants are `(time, bsz)`-shaped; their
  batches are embedded lane-major (one time-list per lane, i.e. the
  transpose), which makes the per-lane fill loops direct list operations.
-/

namespace TXL

/-- Python slice `l[a:b]` for nonnegative `a ≤ b` (clamps at both ends). -/
def pySlice (l : List α) (a b : Nat) : List α := (l.take b).drop a

/-- Last `n` elements of a list, python `l[-n:]` for `0 < n ≤ len(l)`. -/
def lastN (l : List Int) (n : Nat) : List Int := l.drop (l.length - n)

/-- Tokens `0, 1, ..., n-1`, the synthetic stream `range(0, n)`. -/
def intRange (n : Nat) : List Int := (List.range n).map (fun t => (t : Int))

/-! ## `chunk` (data_utils.py lines 398-404)

`k, m = divmod(len(a), n)`; piece `i` is
`a[i*k + min(i, m) : (i+1)*k + min(i+1, m)]`. -/

/-- Python `chunk(a, n)`: split `a` into `n` near-equal contiguous pieces. -/
def chunk {α} (a : List α) (n : Nat) : List (List α) :=
  let k := a.length / n
  let m := a.length % n
  (List.range n).map (fun i => pySlice a (i * k + min i m) ((i + 1) * k + min (i + 1) m))

/-! ## `LMOrderedIterator` (data_utils.py lines 16-65)

Constructor: `n_step = data.size(0) // bsz`; the stream is truncated to
`n_step * bsz` tokens and laid out as `data.view(bsz, -1).t()`, a
`(n_step, bsz)` matrix whose column `b` is the contiguous slab
`data[b*n_step : (b+1)*n_step]`. -/

/-- Python `self.n_step = data.size(0) // bsz`. -/
def n_step (data : List Int) (bsz : Nat) : Nat := data.length / bsz

/-- Rows of `data.view(bsz, -1)` after the truncation `narrow(0, 0,
n_step*bsz)`: row `b` is `data[b*n_step : (b+1)*n_step]`. -/
def viewRows (data : List Int) (bsz : Nat) : List (List Int) :=
  (List.range bsz).map
    (fun b => pySlice data (b * n_step data bsz) ((b + 1) * n_step data bsz))

/-- Python `self.data = data.view(bsz, -1).t()`: the `(n_step, bsz)` matrix,
a list of time rows. -/
def ordData (data : List Int) (bsz : Nat) : List (List Int) :=
  (List.range (n_step data bsz)).map
    (fun t => (viewRows data bsz).map (fun row => row.getD t 0))

/-- A batch of the ordered iterator: `data`/`target` are `(rows, bsz)`
matrices (lists of time rows) and `seq_len` the valid segment length. -/
structure OrdBatch where
  input : List (List Int)
  target : List (List Int)
  seq_len : Nat
deriving DecidableEq

instance : Inhabited OrdBatch := ⟨⟨[], [], 0⟩⟩

/-- Python `LMOrderedIterator.get_batch(i)` (lines 42-58):
`seq_len = min(bptt, data.size(0) - 1 - i)`,
`data[max(0, i - ext_len) : i + seq_len]`, `data[i+1 : i+1+seq_len]`. -/
def get_batch (data : List Int) (bsz bptt ext_len i : Nat) : OrdBatch :=
  let seq_len := min bptt (n_step data bsz - 1 - i)
  ⟨pySlice (ordData data bsz) (i - ext_len) (i + seq_len),
   pySlice (ordData data bsz) (i + 1) (i + 1 + seq_len),
   seq_len⟩

/-- Number of iterations of python `range(o, n_step - 1, bptt)` for a start
`o` already below `n_step - 1`. -/
def numBatches (data : List Int) (bsz bptt o : Nat) : Nat :=
  (n_step data bsz - 1 - o + bptt - 1) / bptt

/-- The wrap-around loop at the top of `LMOrderedIterator.__iter__`
(lines 61-62): `while offset >= sz - 1: offset -= sz - 1` over python ints,
with `fuel` bounding the iterations (`none`: not finished within `fuel`
steps).  For `sz - 1 ≥ 1` and `offset ≥ 0` it terminates with
`offset % (sz - 1)`; for `sz - 1 ≤ 0` it never terminates (claim C10). -/
def wrapFuel : Nat → Int → Int → Option Int
  | 0, _, _ => none
  | fuel + 1, offset, m => if m ≤ offset then wrapFuel fuel (offset - m) m else some offset

/-- One pass of `LMOrderedIterator.__iter__` (lines 60-65) from a persisted
`offset`: the wrap loop reduces `offset` to `o = offset % (n_step - 1)`
(see `ordered_iter_termination`), then batch `j` is produced at
`i = o + j*bptt` and `self.offset = i + bptt` is persisted before the yield.
Each entry pairs the persisted offset with the yielded batch. -/
def ordRun (data : List Int) (bsz bptt ext_len offset : Nat) :
    List (Nat × OrdBatch) :=
  let o := offset % (n_step data bsz - 1)
  (List.range (numBatches data bsz bptt o)).map
    (fun j => (o + j * bptt + bptt, get_batch data bsz bptt ext_len (o + j * bptt)))

/-- The batches of one pass of `LMOrderedIterator.__iter__`. -/
def ordBatches (data : List Int) (bsz bptt ext_len offset : Nat) : List OrdBatch :=
  (ordRun data bsz bptt ext_len offset).map Prod.snd

/-- Column `lane` of a `(rows, bsz)` matrix. -/
def colOf (mat : List (List Int)) (lane : Nat) : List Int :=
  mat.map (fun row => row.getD lane 0)

/-- Lane `lane`'s token sub-stream under the `view(bsz, -1).t()` layout: the
contiguous slab `data[lane*n_step : (lane+1)*n_step]` of the stream. -/
def laneStream (data : List Int) (bsz lane : Nat) : List Int :=
  pySlice data (lane * n_step data bsz) ((lane + 1) * n_step data bsz)

/-- Concatenation of lane `lane` of the target matrices of a batch list. -/
def catTargets (bs : List OrdBatch) (lane : Nat) : List Int :=
  (bs.map (fun b => colOf b.target lane)).flatten

/-! ## `LMShuffledIterator` (data_utils.py lines 68-147)

`stream_iterator` multiplexes a shared sentence stream into `bsz` lanes.
The embedding is lane-major: a batch holds one time-list per lane (the
transpose of the `(bptt, bsz)` tensors).  With `shuffle=False` the sentence
stream is the sentence list in natural order.  Sentences are assumed
nonempty (`encode_file(..., add_double_eos=True)` yields ≥ 2 tokens per
sentence); a sentence of length 1 is skipped by the fill loop exactly as in
the python code, while a length-0 sentence would make the python code write
a negative `n_new`. -/

/-- A batch of the streamed variants, lane-major: `input.getD i []` /
`target.getD i []` are lane `i`'s columns of the `(time, bsz)` tensors. -/
structure SBatch where
  input : List (List Int)
  target : List (List Int)
  seq_len : Nat
deriving DecidableEq

instance : Inhabited SBatch := ⟨⟨[], [], 0⟩⟩

/-- The per-lane fill loop of `LMShuffledIterator.stream_iterator`
(lines 113-124): pull tokens from the lane buffer `buf`, refilling it with
`next(sent_stream)` whenever it holds at most one token, until `need`
(`bptt - n_filled`) data/target tokens are produced.  Returns the data
tokens, target tokens, remaining sentence stream and remaining buffer, or
`none` when `next` raises `StopIteration`.  Each iteration consumes a
sentence or at least one buffered token, so `sents.length + need + 1` fuel
always suffices. -/
def fillLane : Nat → List (List Int) → List Int → Nat →
    Option (List Int × List Int × List (List Int) × List Int)
  | 0, _, _, _ => none
  | fuel + 1, sents, buf, need =>
    if need = 0 then some ([], [], sents, buf)
    else if buf.length ≤ 1 then
      match sents with
      | [] => none
      | s :: rest => fillLane fuel rest s need
    else
      let n := min (buf.length - 1) need
      match fillLane fuel sents (buf.drop n) (need - n) with
      | none => none
      | some (d, t, sents2, buf2) =>
          some (buf.take n ++ d, pySlice buf 1 (n + 1) ++ t, sents2, buf2)

/-- The per-batch lane loop (`for i in range(self.bsz)`, lines 110-127):
fill every lane in order, threading the shared sentence stream; `none`
models `valid_batch = False` (a `StopIteration` while filling some lane,
which discards the whole batch). -/
def fillAll : List (List Int) → List (List Int) → Nat →
    Option (List (List Int) × List (List Int) × List (List Int) × List (List Int))
  | sents, [], _ => some ([], [], sents, [])
  | sents, buf :: bufs, bptt =>
    match fillLane (sents.length + bptt + 1) sents buf bptt with
    | none => none
    | some (d, t, sents2, buf2) =>
      match fillAll sents2 bufs bptt with
      | none => none
      | some (ds, ts, sents3, bufs2) =>
          some (d :: ds, t :: ts, sents3, buf2 :: bufs2)

/-- The `while True` loop of `stream_iterator` (lines 102-140), lane-major.
`retained` holds, per lane, the `n_retain` tokens kept from the previous
batch's `data` (`data[:n_retain]`); a successful fill appends `bptt` fresh
tokens per lane (`data[n_retain:]`), the batch is yielded with valid length
`bptt`, and `n_retain = min(data.size(0), ext_len)` rows are carried into
the next batch (`data[:n_retain] = data[-n_retain:]` then resize).  A failed
fill discards the partial batch and terminates the iterator.  `fuel` bounds
the number of batches. -/
def streamLoop : Nat → List (List Int) → List (List Int) → List (List Int) →
    Nat → Nat → List SBatch
  | 0, _, _, _, _, _ => []
  | fuel + 1, sents, streams, retained, bptt, ext_len =>
    match fillAll sents streams bptt with
    | none => []
    | some (ds, ts, sents2, streams2) =>
      let input := List.zipWith (fun r d => r ++ d) retained ds
      let retained2 := input.map (fun col => col.drop (col.length - min col.length ext_len))
      SBatch.mk input ts bptt :: streamLoop fuel sents2 streams2 retained2 bptt ext_len

/-- `LMShuffledIterator.stream_iterator` with `shuffle=False`: sentences in
natural order, `bsz` empty lane buffers (`streams = [None]*bsz`), nothing
retained.  The fuel dominates the batch count: every batch consumes at
least one token or sentence when `bptt ≥ 1` and `bsz ≥ 1`. -/
def stream_iterator (sents : List (List Int)) (bsz bptt ext_len : Nat) : List SBatch :=
  streamLoop ((sents.map List.length).sum + sents.length + 1) sents
    (List.replicate bsz []) (List.replicate bsz []) bptt ext_len

/-- Concatenated lane-`lane` targets of a streamed batch list, dropping the
`-1` padding sentinel, as in the round-trip claim. -/
def sTargetsCat (bs : List SBatch) (lane : Nat) : List Int :=
  ((bs.map (fun b => b.target.getD lane [])).flatten).filter (fun x => x ≠ -1)

/-- Carry-over relation between consecutive streamed batches: every lane's
first `ext_len` input tokens repeat that lane's last `ext_len` input tokens
of the previous batch. -/
def carryRel (ext_len : Nat) (b1 b2 : SBatch) : Prop :=
  ∀ i, i < b2.input.length →
    (b2.input.getD i []).take ext_len = lastN (b1.input.getD i []) ext_len

/-! ## `LMMultiFileIterator` (data_utils.py lines 150-234)

The constructor asserts `ext_len == 0` and initialises the persisted cursor
`file_offset = 0`, `stream_offsets = [0]*bsz`.  Iteration (with
`shuffle=False`) processes files `file_offset, file_offset+1, ...`; each
file's token stream is split into pieces of `len // bsz` tokens
(`sents.split(...)`; only the first `bsz` pieces are ever consumed), lane
`pos` starts at `streams[pos][stream_offsets[pos]:]`, and the per-file
`while True` loop fills batches like the shuffled variant but raises
`StopIteration` (move to the next file) instead of refilling a lane whose
piece is down to at most one token.  `stream_offsets[pos] += n_new` runs
inside the fill, so offsets advance even for a batch that is then
discarded, and they are never reset between files. -/

/-- `LMMultiFileIterator` state: `paths` holds each file's encoded token
stream (the result of `vocab.encode_file(path, add_double_eos=True)`). -/
structure LMMultiFileIterator where
  paths : List (List Int)
  bsz : Nat
  bptt : Nat
  ext_len : Nat
  file_offset : Nat
  stream_offsets : List Nat
deriving DecidableEq

/-- The constructor (lines 151-168): `ext_len = ext_len if ext_len is not
None else 0`, then `assert self.ext_len == 0` — a nonzero extended context
raises at construction time. -/
def LMMultiFileIterator.init (paths : List (List Int)) (bsz bptt : Nat)
    (ext_len : Option Nat) : Except String LMMultiFileIterator :=
  let e := ext_len.getD 0
  if e = 0 then
    Except.ok ⟨paths, bsz, bptt, e, 0, List.replicate bsz 0⟩
  else
    Except.error "AssertionError: self.ext_len == 0"

/-- Piece `pos` of a file's token stream: `sents.split(len(sents) // bsz)`
gives consecutive pieces of size `len // bsz`; piece `pos < bsz` is
`sents[pos*k : (pos+1)*k]`. -/
def mfPiece (file : List Int) (bsz pos : Nat) : List Int :=
  pySlice file (pos * (file.length / bsz)) ((pos + 1) * (file.length / bsz))

/-- The per-lane fill loop of the multi-file iterator (lines 208-222): no
refill — `len(streams[pos]) <= 1` raises `StopIteration`.  Returns
`(ok, data tokens, target tokens, consumed, remaining buffer)`; `consumed`
is the total added to `stream_offsets[pos]`, which advances even when the
fill subsequently fails.  Fuel `need + 1` always suffices since every
iteration consumes at least one token. -/
def mfFillLane : Nat → List Int → Nat → Bool × List Int × List Int × Nat × List Int
  | 0, buf, _ => (false, [], [], 0, buf)
  | fuel + 1, buf, need =>
    if need = 0 then (true, [], [], 0, buf)
    else if buf.length ≤ 1 then (false, [], [], 0, buf)
    else
      let n := min (buf.length - 1) need
      match mfFillLane fuel (buf.drop n) (need - n) with
      | (ok, d, t, c, buf2) =>
          (ok, buf.take n ++ d, pySlice buf 1 (n + 1) ++ t, n + c, buf2)

/-- The lane loop of one multi-file batch (lines 204-222): fill lanes in
order, stopping at the first `StopIteration`; the offsets of the lanes
touched so far (including the failing lane's partial consumption) are
advanced either way.  Returns `(ok, data lanes, target lanes, new buffers,
new offsets)`. -/
def mfFillAll : List (List Int) → List Nat → Nat →
    Bool × List (List Int) × List (List Int) × List (List Int) × List Nat
  | [], _, _ => (true, [], [], [], [])
  | buf :: bufs, offs, bptt =>
    match mfFillLane (bptt + 1) buf bptt with
    | (false, _, _, c, buf2) =>
        (false, [], [], buf2 :: bufs, (offs.headD 0 + c) :: offs.tail)
    | (true, d, t, c, buf2) =>
      match mfFillAll bufs offs.tail bptt with
      | (ok, ds, ts, bufs2, offs2) =>
          (ok, d :: ds, t :: ts, buf2 :: bufs2, (offs.headD 0 + c) :: offs2)

/-- The `while True` loop run on one file (lines 196-231): `fileNum` is the
`self.file_offset` recorded with every yielded batch, `offs` the persisted
`self.stream_offsets`.  Returns the yielded `(batch, file_offset,
stream_offsets)` entries plus the offsets left when `StopIteration` moves
on to the next file.  `fuel` bounds the number of batches. -/
def mfFileLoop : Nat → List (List Int) → List Nat → List (List Int) →
    Nat → Nat → Nat → List (SBatch × Nat × List Nat) × List Nat
  | 0, _, offs, _, _, _, _ => ([], offs)
  | fuel + 1, streams, offs, retained, bptt, ext_len, fileNum =>
    let r := mfFillAll streams offs bptt
    if r.1 then
      let input := List.zipWith (fun a d => a ++ d) retained r.2.1
      let retained2 := input.map (fun col => col.drop (col.length - min col.length ext_len))
      let res := mfFileLoop fuel r.2.2.2.1 r.2.2.2.2 retained2 bptt ext_len fileNum
      ((SBatch.mk input r.2.2.1 bptt, fileNum, r.2.2.2.2) :: res.1, res.2)
    else ([], r.2.2.2.2)

/-- The lane streams at entry to a file: piece `pos` advanced by the
persisted offset `stream_offsets[pos]`
(`streams[batch_pos] = streams[batch_pos][self.stream_offsets[batch_pos]:]`,
line 188). -/
def mfStreams (file : List Int) (bsz : Nat) (offs : List Nat) : List (List Int) :=
  (List.range bsz).map (fun pos => (mfPiece file bsz pos).drop (offs.getD pos 0))

/-- The outer file loop of `LMMultiFileIterator.__iter__` (lines 175-234)
with `shuffle=False`: `remaining = len(paths) - file_num` files left.  Lane
`pos`'s stream for the current file is its piece advanced by the persisted
offset; the per-file fuel `lane-0 length + 1` dominates the batch count
since every batch consumes `bptt ≥ 1` tokens of lane 0. -/
def mfRunFrom (paths : List (List Int)) (bsz bptt ext_len : Nat) :
    Nat → Nat → List Nat → List (SBatch × Nat × List Nat)
  | 0, _, _ => []
  | remaining + 1, fileNum, offs =>
    let streams := mfStreams (paths.getD fileNum []) bsz offs
    let r := mfFileLoop ((streams.headD []).length + 1) streams offs
      (List.replicate bsz []) bptt ext_len fileNum
    r.1 ++ mfRunFrom paths bsz bptt ext_len remaining (fileNum + 1) r.2

/-- Iterating an `LMMultiFileIterator` from its persisted cursor. -/
def LMMultiFileIterator.iter (it : LMMultiFileIterator) :
    List (SBatch × Nat × List Nat) :=
  mfRunFrom it.paths it.bsz it.bptt it.ext_len
    (it.paths.length - it.file_offset) it.file_offset it.stream_offsets

/-! ## Auxiliary list lemmas -/

/-- Auxiliary: `getD` on a mapped range picks out the function value. -/
theorem getD_range_map {α} (g : Nat → α) (n i : Nat) (d : α) (h : i < n) :
    ((List.range n).map g).getD i d = g i := by
  have hlen : i < ((List.range n).map g).length := by simpa using h
  rw [List.getD_eq_getElem _ d hlen]
  simp

/-- Auxiliary: a list is the `getD`-image of the range over its length. -/
theorem range_map_getD {α} (l : List α) (d : α) :
    (List.range l.length).map (fun i => l.getD i d) = l := by
  apply List.ext_getElem
  · simp
  · intro i h1 h2
    simp only [List.getElem_map, List.getElem_range]
    exact List.getD_eq_getElem l d h2

/-- Auxiliary: concatenating the contiguous slices cut at the increasing
boundaries `f 0 ≤ f 1 ≤ ... ≤ f n` of a list yields the whole span
`[f 0, f n)`. -/
theorem flatten_slices {α} (l : List α) (f : Nat → Nat) (n : Nat)
    (hmono : ∀ j, f j ≤ f (j + 1)) :
    ((List.range n).map (fun j => (l.drop (f j)).take (f (j + 1) - f j))).flatten
      = (l.drop (f 0)).take (f n - f 0) := by
  have hm : Monotone f := monotone_nat_of_le_succ hmono
  induction n with
  | zero => simp
  | succ n ih =>
      rw [List.range_succ, List.map_append, List.flatten_append, ih]
      have h0n : f 0 ≤ f n := hm (Nat.zero_le n)
      have hn : f n ≤ f (n + 1) := hmono n
      have hsum : f (n + 1) - f 0 = (f n - f 0) + (f (n + 1) - f n) := by omega
      rw [hsum, List.take_add]
      have hdd : (l.drop (f 0)).drop (f n - f 0) = l.drop (f n) := by
        rw [List.drop_drop]
        congr 1
        omega
      simp [hdd]

/-- Auxiliary: a python slice as a drop-then-take. -/
theorem pySlice_eq_drop_take {α} (l : List α) (a b : Nat) :
    pySlice l a b = (l.drop a).take (b - a) := List.drop_take b a l

/-- Auxiliary: length of a python slice whose upper bound is in range. -/
theorem pySlice_length {α} (l : List α) (a b : Nat) (hb : b ≤ l.length) :
    (pySlice l a b).length = b - a := by
  simp [pySlice, Nat.min_eq_left hb]

/-- Auxiliary: entry `r` of a python slice is entry `a + r` of the list. -/
theorem pySlice_getD {α} (l : List α) (a b r : Nat) (d : α)
    (hb : b ≤ l.length) (hr : r < b - a) :
    (pySlice l a b).getD r d = l.getD (a + r) d := by
  have h1 : r < (pySlice l a b).length := by rw [pySlice_length l a b hb]; exact hr
  have h2 : a + r < l.length := by omega
  rw [List.getD_eq_getElem _ d h1, List.getD_eq_getElem l d h2]
  simp [pySlice]

/-! ## C4: the chunker -/

/-- C4: for every sequence and every partition count `n ≥ 1`, `chunk a n`
returns `n` slices that concatenate back to `a` (each element covered exactly
once, in order), each of size `len/n` or `len/n + 1`, the `len % n` larger
slices coming first, and any two slice sizes differ by at most 1. -/
theorem chunk_spec {α} (a : List α) (n : Nat) (h : 1 ≤ n) :
    (chunk a n).flatten = a ∧ (chunk a n).length = n ∧
    (∀ i, i < n → ((chunk a n).getD i []).length
        = if i < a.length % n then a.length / n + 1 else a.length / n) ∧
    (∀ i j, i < n → j < n →
      ((chunk a n).getD i []).length ≤ ((chunk a n).getD j []).length + 1) := by
  obtain ⟨k, hk⟩ : ∃ k, a.length / n = k := ⟨_, rfl⟩
  obtain ⟨m, hm⟩ : ∃ m, a.length % n = m := ⟨_, rfl⟩
  rw [hk, hm]
  have hmlt : m < n := hm ▸ Nat.mod_lt _ h
  have htot : n * k + m = a.length := by
    have hdm := Nat.div_add_mod a.length n
    rw [hk, hm] at hdm
    exact hdm
  have hmono : ∀ j : Nat, j * k + min j m ≤ (j + 1) * k + min (j + 1) m := by
    intro j
    have hs : (j + 1) * k = j * k + k := Nat.succ_mul j k
    omega
  have hub : ∀ i, i ≤ n → i * k + min i m ≤ a.length := by
    intro i hi
    have h1 : i * k ≤ n * k := Nat.mul_le_mul_right k hi
    omega
  have hchunk : chunk a n = (List.range n).map
      (fun i => pySlice a (i * k + min i m) ((i + 1) * k + min (i + 1) m)) := by
    simp [chunk, hk, hm]
  have hflat : (chunk a n).flatten = a := by
    rw [hchunk]
    have hrw : (List.range n).map
        (fun i => pySlice a (i * k + min i m) ((i + 1) * k + min (i + 1) m))
        = (List.range n).map (fun i => (a.drop (i * k + min i m)).take
            ((i + 1) * k + min (i + 1) m - (i * k + min i m))) := by
      apply List.map_congr_left
      intro i _
      exact pySlice_eq_drop_take a _ _
    rw [hrw, flatten_slices a (fun i => i * k + min i m) n hmono]
    have hf0 : 0 * k + min 0 m = 0 := by simp
    have hfn : n * k + min n m = a.length := by
      have : min n m = m := Nat.min_eq_right (Nat.le_of_lt hmlt)
      omega
    rw [hf0, hfn]
    simp
  have hsize : ∀ i, i < n → ((chunk a n).getD i []).length
      = if i < m then k + 1 else k := by
    intro i hi
    rw [hchunk, getD_range_map _ n i [] hi]
    rw [pySlice_length a _ _ (hub (i + 1) hi)]
    have hs : (i + 1) * k = i * k + k := Nat.succ_mul i k
    rw [hs]
    rcases Nat.lt_or_ge i m with him | him
    · rw [Nat.min_eq_left (Nat.le_of_lt him), Nat.min_eq_left him, if_pos him]
      omega
    · rw [Nat.min_eq_right him, Nat.min_eq_right (Nat.le_trans him (Nat.le_succ i)),
        if_neg (Nat.not_lt.mpr him)]
      omega
  refine ⟨hflat, by simp [hchunk], hsize, ?_⟩
  intro i j hi hj
  rw [hsize i hi, hsize j hj]
  split_ifs <;> omega

/-- Witness for C4 at a concrete input: `n = 3` pieces of a 7-element list. -/
theorem chunk_spec_witness :
    (1 : Nat) ≤ 3 ∧ (chunk ([0, 1, 2, 3, 4, 5, 6] : List Int) 3).flatten
      = [0, 1, 2, 3, 4, 5, 6] :=
  ⟨by decide, (chunk_spec ([0, 1, 2, 3, 4, 5, 6] : List Int) 3 (by decide)).1⟩

/-! ## Lemmas about the ordered iterator's lane matrix -/

/-- Auxiliary: the lane matrix has `n_step` rows. -/
theorem ordData_length (data : List Int) (bsz : Nat) :
    (ordData data bsz).length = n_step data bsz := by
  simp [ordData]

/-- Auxiliary: a lane's sub-stream holds `n_step` tokens. -/
theorem laneStream_length (data : List Int) (bsz lane : Nat) (hlane : lane < bsz) :
    (laneStream data bsz lane).length = n_step data bsz := by
  have h2 : (lane + 1) * n_step data bsz ≤ bsz * n_step data bsz :=
    Nat.mul_le_mul_right _ hlane
  have h3 : bsz * n_step data bsz ≤ data.length := by
    rw [Nat.mul_comm]
    exact Nat.div_mul_le_self data.length bsz
  rw [laneStream, pySlice_length data _ _ (le_trans h2 h3), Nat.succ_mul]
  omega

/-- Auxiliary: column `lane` of the `view(bsz, -1).t()` matrix is exactly
lane `lane`'s contiguous sub-stream of the truncated token stream. -/
theorem colOf_ordData (data : List Int) (bsz lane : Nat) (hlane : lane < bsz) :
    colOf (ordData data bsz) lane = laneStream data bsz lane := by
  apply List.ext_getElem
  · simp [colOf, ordData, laneStream_length data bsz lane hlane]
  · intro t h1 h2
    rw [← List.getD_eq_getElem (laneStream data bsz lane) 0 h2]
    simp only [colOf, ordData, viewRows, List.getElem_map, List.getElem_range,
      List.map_map, Function.comp]
    rw [getD_range_map _ bsz lane 0 hlane]
    rfl

/-- Auxiliary: taking a column commutes with slicing out rows. -/
theorem colOf_pySlice (mat : List (List Int)) (lane a b : Nat) :
    colOf (pySlice mat a b) lane = pySlice (colOf mat lane) a b := by
  simp [colOf, pySlice, List.map_take, List.map_drop]

/-- Auxiliary: every index `o + j*b` visited by `range(o, m, b)` is below
`m` (with `(m - o + b - 1) / b` iterations). -/
theorem index_lt (m o b j : Nat) (hb : 0 < b) (hj : j < (m - o + b - 1) / b) :
    o + j * b < m := by
  have h2 : (j + 1) * b ≤ (m - o + b - 1) / b * b := Nat.mul_le_mul_right _ hj
  have h3 : (m - o + b - 1) / b * b ≤ m - o + b - 1 := Nat.div_mul_le_self _ _
  have h4 : (j + 1) * b = j * b + b := Nat.succ_mul j b
  have h6 : o < m := by
    rcases Nat.lt_or_ge o m with h | h
    · exact h
    · exfalso
      have hz : m - o = 0 := Nat.sub_eq_zero_of_le h
      rw [hz] at hj
      have hz2 : (0 + b - 1) / b = 0 := Nat.div_eq_of_lt (by omega)
      rw [hz2] at hj
      omega
  omega

/-- Auxiliary: `range(o, m, b)` covers `[o, m)`: `m ≤ o + count*b`. -/
theorem count_mul_ge (m o b : Nat) (hb : 0 < b) (ho : o ≤ m) :
    m ≤ o + (m - o + b - 1) / b * b := by
  have h1 : (m - o + b - 1) / b < (m - o + b - 1) / b + 1 := Nat.lt_succ_self _
  have h2 : m - o + b - 1 < ((m - o + b - 1) / b + 1) * b :=
    (Nat.div_lt_iff_lt_mul hb).mp h1
  have h3 : ((m - o + b - 1) / b + 1) * b = (m - o + b - 1) / b * b + b :=
    Nat.succ_mul _ b
  omega

/-! ## C5: `get_batch` -/

/-- C5: `get_batch(i)` returns valid length `min(S, n_step - 1 - i)`,
input rows `[max(0, i - E), i + seq_len)` and target rows
`[i + 1, i + 1 + seq_len)` of the lane matrix; in particular the full pass
over a 100-token stream with `W = 10`, `S = 100`, `E = 0` yields exactly one
batch of valid length `9 = n_step - 1`. -/
theorem get_batch_spec (data : List Int) (bsz bptt ext_len i : Nat)
    (hi : i + 1 < n_step data bsz) :
    (get_batch data bsz bptt ext_len i).seq_len
        = min bptt (n_step data bsz - 1 - i) ∧
    (get_batch data bsz bptt ext_len i).input.length
        = i + (get_batch data bsz bptt ext_len i).seq_len - (i - ext_len) ∧
    (∀ r, r < (get_batch data bsz bptt ext_len i).input.length →
      (get_batch data bsz bptt ext_len i).input.getD r []
        = (ordData data bsz).getD (i - ext_len + r) []) ∧
    (get_batch data bsz bptt ext_len i).target.length
        = (get_batch data bsz bptt ext_len i).seq_len ∧
    (∀ r, r < (get_batch data bsz bptt ext_len i).seq_len →
      (get_batch data bsz bptt ext_len i).target.getD r []
        = (ordData data bsz).getD (i + 1 + r) []) ∧
    (ordBatches (intRange 100) 10 100 0 0).length = 1 ∧
    ((ordBatches (intRange 100) 10 100 0 0).getD 0 default).seq_len = 9 ∧
    n_step (intRange 100) 10 - 1 = 9 := by
  have hlen : (ordData data bsz).length = n_step data bsz := ordData_length data bsz
  have hmin : min bptt (n_step data bsz - 1 - i) ≤ n_step data bsz - 1 - i :=
    Nat.min_le_right _ _
  have hub1 : i + min bptt (n_step data bsz - 1 - i) ≤ (ordData data bsz).length := by
    rw [hlen]; omega
  have hub2 : i + 1 + min bptt (n_step data bsz - 1 - i) ≤ (ordData data bsz).length := by
    rw [hlen]; omega
  refine ⟨rfl, ?_, ?_, ?_, ?_, by decide, by decide, by decide⟩
  · simp only [get_batch]
    rw [pySlice_length _ _ _ hub1]
  · intro r hr
    simp only [get_batch] at hr ⊢
    rw [pySlice_length _ _ _ hub1] at hr
    exact pySlice_getD _ _ _ _ _ hub1 hr
  · simp only [get_batch]
    rw [pySlice_length _ _ _ hub2]
    omega
  · intro r hr
    simp only [get_batch] at hr ⊢
    exact pySlice_getD _ _ _ _ _ hub2 (by omega)

/-- Witness for C5 at the claim's concrete instance `W = 10`, `S = 100`,
`E = 0`, `i = 0` over a 100-token stream. -/
theorem get_batch_spec_witness :
    (get_batch (intRange 100) 10 100 0 0).seq_len
      = min 100 (n_step (intRange 100) 10 - 1 - 0) :=
  (get_batch_spec (intRange 100) 10 100 0 0 (by decide)).1

/-! ## C10: termination of one ordered pass -/

/-- Auxiliary: for `m ≥ 1` the wrap loop finishes from any `offset ≥ 0`
within `N + 1` iterations where `N` bounds `offset.toNat`. -/
theorem wrapFuel_terminates_aux (m : Int) (hm : 1 ≤ m) (N : Nat) :
    ∀ offset : Int, 0 ≤ offset → offset.toNat ≤ N →
      ∃ fuel r, wrapFuel fuel offset m = some r := by
  induction N with
  | zero =>
      intro offset hoff hN
      have hlt : ¬ m ≤ offset := by omega
      exact ⟨1, offset, by simp [wrapFuel, hlt]⟩
  | succ N ih =>
      intro offset hoff hN
      rcases le_or_lt m offset with h | h
      · obtain ⟨fuel, r, hr⟩ := ih (offset - m) (by omega) (by omega)
        exact ⟨fuel + 1, r, by simp [wrapFuel, h, hr]⟩
      · have hlt : ¬ m ≤ offset := not_le.mpr h
        exact ⟨1, offset, by simp [wrapFuel, hlt]⟩

/-- Auxiliary: for `m ≤ 0` the wrap loop never leaves the range
`offset ≥ 0 ≥ m`, so it runs forever. -/
theorem wrapFuel_diverges_aux (m : Int) (hm : m ≤ 0) :
    ∀ fuel (offset : Int), 0 ≤ offset → wrapFuel fuel offset m = none := by
  intro fuel
  induction fuel with
  | zero => intro offset _; rfl
  | succ fuel ih =>
      intro offset hoff
      have h : m ≤ offset := le_trans hm hoff
      simpa [wrapFuel, h] using ih (offset - m) (by omega)

/-- C10: one pass of `LMOrderedIterator.__iter__` terminates whenever the
truncated lane matrix has at least 2 rows (stream of at least `2*bsz`
tokens): the wrap loop finishes and the pass yields `numBatches` batches.
The precondition is necessary: with fewer than `2*bsz` tokens,
`data.size(0) - 1 ≤ 0` and the wrap loop `while offset >= data.size(0) - 1`
never terminates for any `offset ≥ 0`. -/
theorem ordered_iter_termination (data : List Int) (bsz : Nat) (offset : Int)
    (hb : 1 ≤ bsz) (hoff : 0 ≤ offset) :
    (2 * bsz ≤ data.length →
      ∃ fuel r, wrapFuel fuel offset ((n_step data bsz : Int) - 1) = some r) ∧
    (data.length < 2 * bsz →
      ∀ fuel, wrapFuel fuel offset ((n_step data bsz : Int) - 1) = none) ∧
    (∀ bptt ext_len o, (ordRun data bsz bptt ext_len o).length
      = numBatches data bsz bptt (o % (n_step data bsz - 1))) := by
  refine ⟨?_, ?_, by intro bptt ext_len o; simp [ordRun]⟩
  · intro h
    have h2 : 2 ≤ n_step data bsz := by
      rw [n_step]
      exact (Nat.le_div_iff_mul_le hb).mpr h
    exact wrapFuel_terminates_aux _ (by omega) offset.toNat offset hoff (le_refl _)
  · intro h
    have h2 : n_step data bsz < 2 := by
      by_contra hc
      push_neg at hc
      rw [n_step] at hc
      have := (Nat.le_div_iff_mul_le hb).mp hc
      omega
    exact fun fuel => wrapFuel_diverges_aux _ (by omega) fuel offset hoff

/-- Witness for C10: a 3-token stream with one lane terminates from offset 5;
a 1-token stream with one lane never does. -/
theorem ordered_iter_termination_witness :
    (∃ fuel r, wrapFuel fuel 5 ((n_step [7, 8, 9] 1 : Int) - 1) = some r) ∧
    (∀ fuel, wrapFuel fuel 5 ((n_step [7] 1 : Int) - 1) = none) :=
  ⟨(ordered_iter_termination [7, 8, 9] 1 5 (by decide) (by decide)).1 (by decide),
   (ordered_iter_termination [7] 1 5 (by decide) (by decide)).2.1 (by decide)⟩

/-! ## C2: resuming the ordered iterator from its persisted offset -/

/-- Auxiliary: the batch list of one pass as a plain indexed map. -/
theorem ordBatches_eq (data : List Int) (bsz bptt ext_len offset : Nat) :
    ordBatches data bsz bptt ext_len offset
      = (List.range (numBatches data bsz bptt
          (offset % (n_step data bsz - 1)))).map
          (fun j => get_batch data bsz bptt ext_len
            (offset % (n_step data bsz - 1) + j * bptt)) := by
  simp [ordBatches, ordRun]

/-- C2: the iterator persists `offset = i + bptt` before yielding the batch
at `i`; consequently a fresh `LMOrderedIterator` on the same stream whose
offset is the value persisted with batch `k` yields exactly the batches
`k+1, k+2, ...` that the original pass would have continued with. -/
theorem ordered_resume (data : List Int) (bsz bptt ext_len offset k : Nat)
    (hb : 0 < bptt) (hrows : 2 ≤ n_step data bsz)
    (hk : k + 1 < numBatches data bsz bptt (offset % (n_step data bsz - 1))) :
    ((ordRun data bsz bptt ext_len offset).getD k (0, default)).1
        = offset % (n_step data bsz - 1) + k * bptt + bptt ∧
    ordBatches data bsz bptt ext_len
        ((ordRun data bsz bptt ext_len offset).getD k (0, default)).1
      = (ordBatches data bsz bptt ext_len offset).drop (k + 1) := by
  have hentry : ((ordRun data bsz bptt ext_len offset).getD k (0, default)).1
      = offset % (n_step data bsz - 1) + k * bptt + bptt := by
    rw [ordRun]
    rw [getD_range_map _ _ k (0, default) (by omega)]
  refine ⟨hentry, ?_⟩
  rw [hentry]
  obtain ⟨m, hm⟩ : ∃ m, n_step data bsz - 1 = m := ⟨_, rfl⟩
  rw [hm] at hentry hk ⊢
  obtain ⟨o, ho⟩ : ∃ o, offset % m = o := ⟨_, rfl⟩
  rw [ho] at hentry hk ⊢
  obtain ⟨nb, hnb⟩ : ∃ nb, numBatches data bsz bptt o = nb := ⟨_, rfl⟩
  have hnbdef : (m - o + bptt - 1) / bptt = nb := by
    rw [← hnb, numBatches, hm]
  rw [hnb] at hk
  -- the resumed start index is in range, so the fresh wrap loop is a no-op
  have hlt : o + (k + 1) * bptt < m := by
    have := index_lt m o bptt (k + 1) hb (by omega)
    exact this
  have hsucc : (k + 1) * bptt = k * bptt + bptt := Nat.succ_mul k bptt
  have hmod : (o + k * bptt + bptt) % m = o + k * bptt + bptt := by
    apply Nat.mod_eq_of_lt
    omega
  -- the fresh pass has exactly `nb - (k+1)` batches
  have hcount : numBatches data bsz bptt (o + k * bptt + bptt) = nb - (k + 1) := by
    rw [numBatches, hm]
    have h2 : bptt * (k + 1) ≤ m - o + bptt - 1 := by
      have h3 : (k + 1) ≤ (m - o + bptt - 1) / bptt := by omega
      have h4 := (Nat.le_div_iff_mul_le hb).mp h3
      have h5 : bptt * (k + 1) = (k + 1) * bptt := Nat.mul_comm _ _
      omega
    have h1 : m - (o + k * bptt + bptt) + bptt - 1
        = (m - o + bptt - 1) - bptt * (k + 1) := by
      have h5 : bptt * (k + 1) = (k + 1) * bptt := Nat.mul_comm _ _
      omega
    rw [h1, Nat.sub_mul_div _ _ _ h2, hnbdef]
  rw [ordBatches_eq, ordBatches_eq, hm, hmod, hcount, ho, hnb]
  apply List.ext_getElem
  · simp
  · intro j hj1 hj2
    simp only [List.getElem_drop, List.getElem_map, List.getElem_range]
    have harg : o + k * bptt + bptt + j * bptt = o + (k + 1 + j) * bptt := by
      have h6 : (k + 1 + j) * bptt = (k + 1) * bptt + j * bptt := Nat.add_mul _ _ _
      omega
    rw [harg]

/-- Witness for C2: a 20-token stream, `W = 2`, `S = 3`, resumed after the
second batch (`k = 1`). -/
theorem ordered_resume_witness :
    ((ordRun (intRange 20) 2 3 0 0).getD 1 (0, default)).1
        = 0 % (n_step (intRange 20) 2 - 1) + 1 * 3 + 3 ∧
    ordBatches (intRange 20) 2 3 0
        ((ordRun (intRange 20) 2 3 0 0).getD 1 (0, default)).1
      = (ordBatches (intRange 20) 2 3 0 0).drop (1 + 1) :=
  ordered_resume (intRange 20) 2 3 0 0 1 (by decide) (by decide) (by decide)

/-! ## C1: round trip of targets -/

/-- C1 (amended): for the ordered variant, concatenating the `lane` columns
of the targets of one full pass from offset 0 reproduces lane `lane`'s
token sub-stream shifted by one position.  (The streamed variants do not
satisfy the claim; see `shuffled_round_trip_cex`.) -/
theorem ordered_round_trip (data : List Int) (bsz bptt ext_len lane : Nat)
    (hb : 0 < bptt) (hrows : 2 ≤ n_step data bsz) (hlane : lane < bsz) :
    catTargets (ordBatches data bsz bptt ext_len 0) lane
      = (laneStream data bsz lane).drop 1 := by
  obtain ⟨m, hm⟩ : ∃ m, n_step data bsz - 1 = m := ⟨_, rfl⟩
  obtain ⟨nb, hnbd⟩ : ∃ nb, numBatches data bsz bptt 0 = nb := ⟨_, rfl⟩
  have he : (m - 0 + bptt - 1) / bptt = nb := by
    rw [← hnbd, numBatches, hm]
  have hcol := colOf_ordData data bsz lane hlane
  have hclen := laneStream_length data bsz lane hlane
  have hidx : ∀ j, j < nb → j * bptt < m := by
    intro j hj
    have h1 := index_lt m 0 bptt j hb (by rw [he]; exact hj)
    omega
  have hcov : m ≤ nb * bptt := by
    have h1 := count_mul_ge m 0 bptt hb (Nat.zero_le m)
    rw [he] at h1
    omega
  rw [catTargets, ordBatches_eq, hm, Nat.zero_mod, hnbd, List.map_map]
  have hrw : (List.range nb).map
      ((fun b => colOf b.target lane) ∘
        (fun j => get_batch data bsz bptt ext_len (0 + j * bptt)))
      = (List.range nb).map (fun j =>
          (((laneStream data bsz lane).drop 1).drop (min (j * bptt) m)).take
            (min ((j + 1) * bptt) m - min (j * bptt) m)) := by
    apply List.map_congr_left
    intro j hj
    have hjnb : j < nb := List.mem_range.mp hj
    simp only [Function.comp, Nat.zero_add, get_batch]
    rw [colOf_pySlice, hcol, pySlice_eq_drop_take, hm]
    have ht : j * bptt + 1 + min bptt (m - j * bptt) - (j * bptt + 1)
        = min bptt (m - j * bptt) := by omega
    rw [ht, Nat.min_eq_left (le_of_lt (hidx j hjnb))]
    have hd : ((laneStream data bsz lane).drop 1).drop (j * bptt)
        = (laneStream data bsz lane).drop (j * bptt + 1) := by
      rw [List.drop_drop]
      congr 1
      omega
    rw [← hd]
    congr 1
    have hsm : (j + 1) * bptt = j * bptt + bptt := Nat.succ_mul j bptt
    omega
  rw [hrw]
  rw [flatten_slices ((laneStream data bsz lane).drop 1)
    (fun j => min (j * bptt) m) nb
    (fun j => min_le_min (Nat.mul_le_mul_right bptt (Nat.le_succ j)) (le_refl m))]
  have hf0 : min (0 * bptt) m = 0 := by
    rw [Nat.zero_mul]
    exact Nat.zero_min m
  have hfn : min (nb * bptt) m = m := Nat.min_eq_right hcov
  rw [hf0, hfn]
  have hl2 : ((laneStream data bsz lane).drop 1).length = m := by
    rw [List.length_drop, hclen]
    omega
  rw [List.drop_zero, Nat.sub_zero, ← hl2, List.take_length]

/-- C1 counterexample: the claim fails on the shuffled variant.  With
sentences `[[1,2],[3,4]]`, one lane and `bptt = 2`, the lane consumes both
sentences, so its token sub-stream is `[1,2,3,4]` and its shift by one is
`[2,3,4]`, but the concatenated targets (no `-1` cells to drop) are
`[2,4]`: the sentence boundary drops a token. -/
theorem shuffled_round_trip_cex :
    sTargetsCat (stream_iterator [[1, 2], [3, 4]] 1 2 0) 0 = [2, 4] ∧
    ([[1, 2], [3, 4]] : List (List Int)).flatten.drop 1 = [2, 3, 4] ∧
    sTargetsCat (stream_iterator [[1, 2], [3, 4]] 1 2 0) 0
      ≠ ([[1, 2], [3, 4]] : List (List Int)).flatten.drop 1 := by
  decide

set_option maxRecDepth 8000 in
/-- Witness for C1's amended theorem at the claim's concrete instance:
stream `range(0, 1000)`, `W = 4`, `S = 7`, `E = 0`, lane 0. -/
theorem ordered_round_trip_witness :
    catTargets (ordBatches (intRange 1000) 4 7 0 0) 0
      = (laneStream (intRange 1000) 4 0).drop 1 :=
  ordered_round_trip (intRange 1000) 4 7 0 0 (by decide) (by decide) (by decide)

/-! ## Lemmas about the shuffled iterator's fill loop -/

/-- Auxiliary: a successful lane fill produces exactly `need` data tokens
and `need` target tokens. -/
theorem fillLane_lengths : ∀ (fuel : Nat) (sents : List (List Int)) (buf : List Int)
    (need : Nat) (d t : List Int) (s2 : List (List Int)) (b2 : List Int),
    fillLane fuel sents buf need = some (d, t, s2, b2) →
    d.length = need ∧ t.length = need := by
  intro fuel
  induction fuel with
  | zero =>
      intro sents buf need d t s2 b2 h
      exact absurd h (by simp [fillLane])
  | succ fuel ih =>
      intro sents buf need d t s2 b2 h
      simp only [fillLane] at h
      by_cases h0 : need = 0
      · rw [if_pos h0] at h
        simp only [Option.some.injEq, Prod.mk.injEq] at h
        obtain ⟨hd, ht, _, _⟩ := h
        subst hd ht h0
        exact ⟨rfl, rfl⟩
      · rw [if_neg h0] at h
        by_cases h1 : buf.length ≤ 1
        · rw [if_pos h1] at h
          cases sents with
          | nil => exact absurd h (by simp)
          | cons s rest => exact ih rest s need d t s2 b2 h
        · rw [if_neg h1] at h
          cases hrec : fillLane fuel sents (buf.drop (min (buf.length - 1) need))
              (need - min (buf.length - 1) need) with
          | none =>
              simp only [hrec] at h
              exact absurd h (by simp)
          | some q =>
              obtain ⟨d1, t1, s1, b1⟩ := q
              simp only [hrec, Option.some.injEq, Prod.mk.injEq] at h
              obtain ⟨hd, ht, _, _⟩ := h
              obtain ⟨hl1, hl2⟩ := ih sents _ _ d1 t1 s1 b1 hrec
              subst hd ht
              have hmin2 : min (buf.length - 1) need + 1 ≤ buf.length := by omega
              constructor
              · rw [List.length_append, List.length_take, hl1]
                omega
              · rw [List.length_append, pySlice_length buf 1 _ hmin2, hl2]
                omega

/-- Auxiliary: a successful batch fill returns one data and one target list
per lane, each of exactly `bptt` tokens, and as many lane buffers as before. -/
theorem fillAll_lengths : ∀ (streams : List (List Int)) (sents : List (List Int))
    (bptt : Nat) (ds ts s2 st2 : List (List Int)),
    fillAll sents streams bptt = some (ds, ts, s2, st2) →
    ds.length = streams.length ∧ ts.length = streams.length ∧
    st2.length = streams.length ∧
    (∀ d ∈ ds, d.length = bptt) ∧ (∀ t ∈ ts, t.length = bptt) := by
  intro streams
  induction streams with
  | nil =>
      intro sents bptt ds ts s2 st2 h
      simp only [fillAll, Option.some.injEq, Prod.mk.injEq] at h
      obtain ⟨h1, h2, _, h4⟩ := h
      subst h1 h2 h4
      simp
  | cons buf bufs ih =>
      intro sents bptt ds ts s2 st2 h
      rw [fillAll] at h
      cases hl : fillLane (sents.length + bptt + 1) sents buf bptt with
      | none =>
          simp only [hl] at h
          exact absurd h (by simp)
      | some q =>
          obtain ⟨d, t, sents2, buf2⟩ := q
          simp only [hl] at h
          cases ha : fillAll sents2 bufs bptt with
          | none =>
              simp only [ha] at h
              exact absurd h (by simp)
          | some q2 =>
              obtain ⟨ds1, ts1, sents3, bufs2⟩ := q2
              simp only [ha, Option.some.injEq, Prod.mk.injEq] at h
              obtain ⟨hd, ht, _, hst⟩ := h
              subst hd ht hst
              obtain ⟨hl1, hl2⟩ := fillLane_lengths _ _ _ _ _ _ _ _ hl
              obtain ⟨ha1, ha2, ha3, ha4, ha5⟩ := ih sents2 bptt ds1 ts1 sents3 bufs2 ha
              refine ⟨by simp [ha1], by simp [ha2], by simp [ha3], ?_, ?_⟩
              · intro x hx
                rcases List.mem_cons.mp hx with hx | hx
                · rw [hx]; exact hl1
                · exact ha4 x hx
              · intro x hx
                rcases List.mem_cons.mp hx with hx | hx
                · rw [hx]; exact hl2
                · exact ha5 x hx

/-- Auxiliary: structure of the first batch produced by the stream loop. -/
theorem streamLoop_head (fuel : Nat) (sents streams retained : List (List Int))
    (bptt ext_len : Nat) (b : SBatch) (rest : List SBatch)
    (h : streamLoop fuel sents streams retained bptt ext_len = b :: rest) :
    ∃ ds sents2 streams2,
      fillAll sents streams bptt = some (ds, b.target, sents2, streams2) ∧
      b.input = List.zipWith (fun r d => r ++ d) retained ds ∧
      b.seq_len = bptt ∧
      rest = streamLoop (fuel - 1) sents2 streams2
        (b.input.map (fun col => col.drop (col.length - min col.length ext_len)))
        bptt ext_len := by
  cases fuel with
  | zero => exact absurd h (by simp [streamLoop])
  | succ fuel =>
      rw [streamLoop] at h
      cases hfa : fillAll sents streams bptt with
      | none => rw [hfa] at h; exact absurd h (by simp)
      | some q =>
          obtain ⟨ds, ts, sents2, streams2⟩ := q
          rw [hfa] at h
          simp only [List.cons.injEq] at h
          obtain ⟨hb, hrest⟩ := h
          subst hb
          subst hrest
          exact ⟨ds, sents2, streams2, rfl, rfl, rfl, rfl⟩

/-! ## C7: source exhaustion kills the whole shuffled iterator -/

/-- C7: when `StopIteration` hits while filling any lane of a batch
(`fillAll ... = none`), the whole iterator terminates at once: the
partially-filled batch is never yielded and no further batches are
produced, whatever tokens other lanes still buffer.  The concrete instance:
with sentences `[[1,2,3,4,5],[6,7]]` and two lanes of `bptt = 2`, lane 1
exhausts the source during the very first batch while lane 0 still buffers
`[3,4,5]`, so the iterator yields nothing at all. -/
theorem shuffled_stop_on_exhaustion (sents streams retained : List (List Int))
    (bptt ext_len fuel : Nat) (h : fillAll sents streams bptt = none) :
    streamLoop (fuel + 1) sents streams retained bptt ext_len = [] ∧
    stream_iterator [[1, 2, 3, 4, 5], [6, 7]] 2 2 0 = [] := by
  constructor
  · rw [streamLoop]
    simp only [h]
  · decide

/-- Witness for C7 at the failing state of the concrete instance: the very
first `fillAll` of that run raises `StopIteration` in lane 1. -/
theorem shuffled_stop_on_exhaustion_witness :
    streamLoop (0 + 1) [[1, 2, 3, 4, 5], [6, 7]] (List.replicate 2 [])
        (List.replicate 2 []) 2 0 = [] ∧
    stream_iterator [[1, 2, 3, 4, 5], [6, 7]] 2 2 0 = [] :=
  shuffled_stop_on_exhaustion [[1, 2, 3, 4, 5], [6, 7]] (List.replicate 2 [])
    (List.replicate 2 []) 2 0 0 (by decide)

/-! ## C6: extended-context carry-over -/

/-- Auxiliary: the stream loop's output is a chain under the carry-over
relation whenever `0 < ext_len ≤ bptt`: each batch's input per lane is the
retained suffix of the previous input followed by `bptt` fresh tokens. -/
theorem streamLoop_chain (bptt ext_len : Nat) (hext : 0 < ext_len)
    (hbp : ext_len ≤ bptt) :
    ∀ (fuel : Nat) (sents streams retained : List (List Int)),
    List.Chain' (carryRel ext_len)
      (streamLoop fuel sents streams retained bptt ext_len) := by
  intro fuel
  induction fuel with
  | zero => intro sents streams retained; simp [streamLoop]
  | succ fuel ih =>
      intro sents streams retained
      cases hfa : fillAll sents streams bptt with
      | none =>
          rw [streamLoop]
          simp [hfa]
      | some q =>
          obtain ⟨ds, ts, sents2, streams2⟩ := q
          rw [streamLoop]
          simp only [hfa]
          rw [List.chain'_cons']
          refine ⟨?_, ih sents2 streams2 _⟩
          intro b2 hb2
          cases hl : streamLoop fuel sents2 streams2
              ((List.zipWith (fun r d => r ++ d) retained ds).map
                (fun col => col.drop (col.length - min col.length ext_len)))
              bptt ext_len with
          | nil => rw [hl] at hb2; exact absurd hb2 (by simp)
          | cons bh brest =>
              rw [hl] at hb2
              simp only [List.head?_cons, Option.mem_def, Option.some.injEq] at hb2
              subst hb2
              obtain ⟨ds2, sents3, streams3, hfa2, hinp2, _, _⟩ :=
                streamLoop_head fuel sents2 streams2 _ bptt ext_len bh brest hl
              obtain ⟨_, _, _, hd2len, _⟩ := fillAll_lengths streams2 sents2 bptt _ _ _ _ hfa2
              obtain ⟨_, _, _, hd1len, _⟩ := fillAll_lengths streams sents bptt _ _ _ _ hfa
              intro i hi
              -- lane `i` of the next batch's input
              rw [hinp2] at hi
              rw [List.length_zipWith, List.length_map, List.length_zipWith] at hi
              have hi1 : i < retained.length := by omega
              have hi2 : i < ds.length := by omega
              have hi3 : i < ds2.length := by omega
              have hizw : i < (List.zipWith (fun r d => r ++ d) retained ds).length := by
                rw [List.length_zipWith]; omega
              have hizw2 : i < ((List.zipWith (fun r d => r ++ d) retained ds).map
                  (fun col => col.drop (col.length - min col.length ext_len))).length := by
                rw [List.length_map]; omega
              have hizw3 : i < (List.zipWith (fun r d => r ++ d)
                  ((List.zipWith (fun r d => r ++ d) retained ds).map
                    (fun col => col.drop (col.length - min col.length ext_len)))
                  ds2).length := by
                rw [List.length_zipWith, List.length_map]
                omega
              rw [hinp2]
              rw [List.getD_eq_getElem _ [] hizw3, List.getElem_zipWith]
              simp only [List.getElem_map, List.getElem_zipWith]
              -- the previous batch's input at lane `i`
              have hprev : (SBatch.mk (List.zipWith (fun r d => r ++ d) retained ds)
                  ts bptt).input.getD i []
                  = retained[i] ++ ds[i] := by
                rw [List.getD_eq_getElem _ [] (by simpa [List.length_zipWith] using hizw)]
                simp [List.getElem_zipWith]
              rw [hprev]
              -- lengths
              have hdi : (ds[i]).length = bptt := hd1len _ (List.getElem_mem hi2)
              have hlen1 : (retained[i] ++ ds[i]).length = retained[i].length + bptt := by
                rw [List.length_append, hdi]
              have hminext : min (retained[i] ++ ds[i]).length ext_len = ext_len := by
                rw [hlen1]
                omega
              rw [hminext]
              have hretlen : ((retained[i] ++ ds[i]).drop
                  ((retained[i] ++ ds[i]).length - ext_len)).length = ext_len := by
                rw [List.length_drop, hlen1]
                omega
              rw [List.take_append_of_le_length (by rw [hretlen])]
              rw [lastN]
              exact List.take_of_length_le (by rw [hretlen])

/-- C6 (amended): for the ShuffledStreamBatcher with `0 < E ≤ S`, every pair
of consecutive yielded batches satisfies the carry-over relation: the first
`E` input tokens of each lane of batch `n` equal the last `E` input tokens
of that lane of batch `n-1` (the code retains `min(data_rows, E)` rows,
which equals `E = min(S, E)` whenever `E ≤ S`).  Sentences are assumed
nonempty, the domain on which the embedding is faithful. -/
theorem shuffled_carry_over (sents : List (List Int)) (bsz bptt ext_len : Nat)
    (h1 : 0 < ext_len) (h2 : ext_len ≤ bptt) (hne : ∀ s ∈ sents, s ≠ []) :
    List.Chain' (carryRel ext_len) (stream_iterator sents bsz bptt ext_len) :=
  streamLoop_chain bptt ext_len h1 h2 _ sents _ _

/-- C6 counterexample: with one lane, `S = 1`, `E = 2` over the sentence
`[0..9]`, the code does not retain `min(S, E) = 1` row: the third batch's
input holds 3 rows (`min(data_rows, E) = 2` retained plus one fresh), and
the first `E = 2` input rows of batch 1 (`[0, 1]`) differ from the last
`E = 2` input rows of batch 0 (`[0]`, only one row exists). -/
theorem shuffled_carry_over_cex :
    ((stream_iterator [[0, 1, 2, 3, 4, 5, 6, 7, 8, 9]] 1 1 2).getD 2
        default).input.getD 0 [] = [0, 1, 2] ∧
    (((stream_iterator [[0, 1, 2, 3, 4, 5, 6, 7, 8, 9]] 1 1 2).getD 1
        default).input.getD 0 []).take 2 = [0, 1] ∧
    lastN (((stream_iterator [[0, 1, 2, 3, 4, 5, 6, 7, 8, 9]] 1 1 2).getD 0
        default).input.getD 0 []) 2 = [0] ∧
    ([0, 1] : List Int) ≠ [0] := by
  decide

/-- Witness for C6's amended theorem at a concrete instance. -/
theorem shuffled_carry_over_witness :
    List.Chain' (carryRel 1) (stream_iterator [[1, 2, 3, 4, 5]] 1 2 1) :=
  shuffled_carry_over [[1, 2, 3, 4, 5]] 1 2 1 (by decide) (by decide) (by decide)

/-! ## C8: the terminal partial batch is discarded, padding never escapes -/

/-- Auxiliary: a successful lane fill only emits tokens drawn from the
buffer or the sentence stream, so nonnegativity is preserved. -/
theorem fillLane_nonneg : ∀ (fuel : Nat) (sents : List (List Int)) (buf : List Int)
    (need : Nat) (d t : List Int) (s2 : List (List Int)) (b2 : List Int),
    fillLane fuel sents buf need = some (d, t, s2, b2) →
    (∀ s ∈ sents, ∀ x ∈ s, 0 ≤ x) → (∀ x ∈ buf, 0 ≤ x) →
    (∀ x ∈ d, 0 ≤ x) ∧ (∀ x ∈ t, 0 ≤ x) ∧
    (∀ s ∈ s2, ∀ x ∈ s, 0 ≤ x) ∧ (∀ x ∈ b2, 0 ≤ x) := by
  intro fuel
  induction fuel with
  | zero =>
      intro sents buf need d t s2 b2 h
      exact absurd h (by simp [fillLane])
  | succ fuel ih =>
      intro sents buf need d t s2 b2 h hs hb
      simp only [fillLane] at h
      by_cases h0 : need = 0
      · rw [if_pos h0] at h
        simp only [Option.some.injEq, Prod.mk.injEq] at h
        obtain ⟨hd, ht, hsents, hbuf⟩ := h
        subst hd ht hsents hbuf
        exact ⟨by simp, by simp, hs, hb⟩
      · rw [if_neg h0] at h
        by_cases h1 : buf.length ≤ 1
        · rw [if_pos h1] at h
          cases sents with
          | nil => exact absurd h (by simp)
          | cons s rest =>
              exact ih rest s need d t s2 b2 h
                (fun s' hs' x hx => hs s' (List.mem_cons_of_mem _ hs') x hx)
                (fun x hx => hs s (List.mem_cons_self _ _) x hx)
        · rw [if_neg h1] at h
          cases hrec : fillLane fuel sents (buf.drop (min (buf.length - 1) need))
              (need - min (buf.length - 1) need) with
          | none =>
              simp only [hrec] at h
              exact absurd h (by simp)
          | some q =>
              obtain ⟨d1, t1, s1, b1⟩ := q
              simp only [hrec, Option.some.injEq, Prod.mk.injEq] at h
              obtain ⟨hd, ht, hsents, hbuf⟩ := h
              subst hd ht hsents hbuf
              obtain ⟨ih1, ih2, ih3, ih4⟩ := ih sents _ _ d1 t1 s1 b1 hrec hs
                (fun x hx => hb x (List.mem_of_mem_drop hx))
              refine ⟨?_, ?_, ih3, ih4⟩
              · intro x hx
                rcases List.mem_append.mp hx with hx | hx
                · exact hb x (List.mem_of_mem_take hx)
                · exact ih1 x hx
              · intro x hx
                rcases List.mem_append.mp hx with hx | hx
                · exact hb x (List.mem_of_mem_take (List.mem_of_mem_drop hx))
                · exact ih2 x hx

/-- Auxiliary: a successful batch fill preserves nonnegativity everywhere. -/
theorem fillAll_nonneg : ∀ (streams : List (List Int)) (sents : List (List Int))
    (bptt : Nat) (ds ts s2 st2 : List (List Int)),
    fillAll sents streams bptt = some (ds, ts, s2, st2) →
    (∀ s ∈ sents, ∀ x ∈ s, 0 ≤ x) → (∀ s ∈ streams, ∀ x ∈ s, 0 ≤ x) →
    (∀ c ∈ ds, ∀ x ∈ c, 0 ≤ x) ∧ (∀ c ∈ ts, ∀ x ∈ c, 0 ≤ x) ∧
    (∀ s ∈ s2, ∀ x ∈ s, 0 ≤ x) ∧ (∀ s ∈ st2, ∀ x ∈ s, 0 ≤ x) := by
  intro streams
  induction streams with
  | nil =>
      intro sents bptt ds ts s2 st2 h hs _
      simp only [fillAll, Option.some.injEq, Prod.mk.injEq] at h
      obtain ⟨h1, h2, h3, h4⟩ := h
      subst h1 h2 h3 h4
      exact ⟨by simp, by simp, hs, by simp⟩
  | cons buf bufs ih =>
      intro sents bptt ds ts s2 st2 h hs hst
      rw [fillAll] at h
      cases hl : fillLane (sents.length + bptt + 1) sents buf bptt with
      | none =>
          simp only [hl] at h
          exact absurd h (by simp)
      | some q =>
          obtain ⟨d, t, sents2, buf2⟩ := q
          simp only [hl] at h
          cases ha : fillAll sents2 bufs bptt with
          | none =>
              simp only [ha] at h
              exact absurd h (by simp)
          | some q2 =>
              obtain ⟨ds1, ts1, sents3, bufs2⟩ := q2
              simp only [ha, Option.some.injEq, Prod.mk.injEq] at h
              obtain ⟨hd, ht, hsn, hst2⟩ := h
              subst hd ht hsn hst2
              obtain ⟨hl1, hl2, hl3, hl4⟩ := fillLane_nonneg _ _ _ _ _ _ _ _ hl hs
                (fun x hx => hst buf (List.mem_cons_self _ _) x hx)
              obtain ⟨ha1, ha2, ha3, ha4⟩ := ih sents2 bptt ds1 ts1 sents3 bufs2 ha hl3
                (fun s hs' x hx => hst s (List.mem_cons_of_mem _ hs') x hx)
              refine ⟨?_, ?_, ha3, ?_⟩
              · intro c hc
                rcases List.mem_cons.mp hc with hc | hc
                · rw [hc]; exact hl1
                · exact ha1 c hc
              · intro c hc
                rcases List.mem_cons.mp hc with hc | hc
                · rw [hc]; exact hl2
                · exact ha2 c hc
              · intro s hsm
                rcases List.mem_cons.mp hsm with hsm | hsm
                · rw [hsm]; exact hl4
                · exact ha4 s hsm

/-- Auxiliary: every batch the stream loop yields is full: valid length
`bptt`, one target column per lane, each of exactly `bptt` tokens, all
nonnegative when the sources are. -/
theorem streamLoop_full (bptt ext_len bsz : Nat) :
    ∀ (fuel : Nat) (sents streams retained : List (List Int)),
    (∀ s ∈ sents, ∀ x ∈ s, 0 ≤ x) → (∀ s ∈ streams, ∀ x ∈ s, 0 ≤ x) →
    streams.length = bsz →
    ∀ b ∈ streamLoop fuel sents streams retained bptt ext_len,
      b.seq_len = bptt ∧ b.target.length = bsz ∧
      ∀ col ∈ b.target, col.length = bptt ∧ ∀ x ∈ col, 0 ≤ x := by
  intro fuel
  induction fuel with
  | zero =>
      intro sents streams retained _ _ _ b hb
      exact absurd hb (by simp [streamLoop])
  | succ fuel ih =>
      intro sents streams retained hs hst hlen b hb
      rw [streamLoop] at hb
      cases hfa : fillAll sents streams bptt with
      | none =>
          rw [hfa] at hb
          exact absurd hb (by simp)
      | some q =>
          obtain ⟨ds, ts, sents2, streams2⟩ := q
          simp only [hfa] at hb
          obtain ⟨_, hts, hst2, _, htl⟩ := fillAll_lengths streams sents bptt _ _ _ _ hfa
          obtain ⟨_, hts0, hsn2, hstn2⟩ := fillAll_nonneg streams sents bptt _ _ _ _ hfa hs hst
          rcases List.mem_cons.mp hb with hb | hb
          · subst hb
            refine ⟨rfl, by rw [hts, hlen], ?_⟩
            intro col hcol
            exact ⟨htl col hcol, hts0 col hcol⟩
          · exact ih sents2 streams2 _ hsn2 hstn2 (by rw [hst2, hlen]) b hb

/-- C8 (amended): a batch left partially filled because the sentence source
is exhausted is discarded (its cells were pre-filled with the sentinel `-1`
but it is never yielded, and iteration ends; see
`shuffled_stop_on_exhaustion`).  Consequently every yielded batch is full:
valid length `bptt`, `bsz` target columns of exactly `bptt` tokens each,
and — for nonnegative token ids — no `-1` sentinel ever appears in a
yielded target.  Sentences are assumed nonempty, the domain on which the
embedding is faithful. -/
theorem shuffled_discard_padding (sents : List (List Int)) (bsz bptt ext_len : Nat)
    (hne : ∀ s ∈ sents, s ≠ []) (hpos : ∀ s ∈ sents, ∀ x ∈ s, 0 ≤ x) :
    ∀ b ∈ stream_iterator sents bsz bptt ext_len,
      b.seq_len = bptt ∧ b.target.length = bsz ∧
      ∀ col ∈ b.target, col.length = bptt ∧ ∀ x ∈ col, 0 ≤ x :=
  streamLoop_full bptt ext_len bsz _ sents (List.replicate bsz [])
    (List.replicate bsz []) hpos (by simp) (by simp)

/-- C8 counterexample: with the single sentence `[1,2,3]`, one lane and
`bptt = 4`, the lane cannot supply 4 tokens; the claim says the `-1`-padded
batch is still yielded as the terminal batch, but the code yields nothing
at all. -/
theorem shuffled_discard_padding_cex :
    stream_iterator [[1, 2, 3]] 1 4 0 = [] := by
  decide

/-- Witness for C8's amended theorem at a concrete instance: the one batch
of `stream_iterator [[1,2,3]] 1 2 0` has valid length 2. -/
theorem shuffled_discard_padding_witness :
    ((stream_iterator [[1, 2, 3]] 1 2 0).getD 0 default).seq_len = 2 :=
  (shuffled_discard_padding [[1, 2, 3]] 1 2 0 (by decide) (by decide)
    ((stream_iterator [[1, 2, 3]] 1 2 0).getD 0 default) (by decide)).1

/-! ## C9: nonzero extended context is rejected at construction -/

/-- C9: constructing an `LMMultiFileIterator` with a nonzero extended
context fails at construction time (the `assert self.ext_len == 0` raises);
construction with `E = 0` or `E` unspecified succeeds, and every
successfully constructed instance has `ext_len = 0` — the value is never
silently coerced. -/
theorem multifile_ext_guard (paths : List (List Int)) (bsz bptt : Nat) :
    (∀ e, e ≠ 0 →
      ∀ it, LMMultiFileIterator.init paths bsz bptt (some e) ≠ Except.ok it) ∧
    (LMMultiFileIterator.init paths bsz bptt none
      = Except.ok ⟨paths, bsz, bptt, 0, 0, List.replicate bsz 0⟩) ∧
    (LMMultiFileIterator.init paths bsz bptt (some 0)
      = Except.ok ⟨paths, bsz, bptt, 0, 0, List.replicate bsz 0⟩) ∧
    (∀ e it, LMMultiFileIterator.init paths bsz bptt e = Except.ok it →
      it.ext_len = 0) := by
  refine ⟨?_, rfl, rfl, ?_⟩
  · intro e he it h
    simp [LMMultiFileIterator.init, he] at h
  · intro e it h
    rw [LMMultiFileIterator.init] at h
    by_cases h0 : e.getD 0 = 0
    · rw [if_pos h0] at h
      simp only [Except.ok.injEq] at h
      rw [← h]
      exact h0
    · rw [if_neg h0] at h
      exact absurd h (by simp)

/-- Witness for C9 at a concrete instance. -/
theorem multifile_ext_guard_witness :
    LMMultiFileIterator.init [[1, 2], [3, 4]] 2 3 none
      = Except.ok ⟨[[1, 2], [3, 4]], 2, 3, 0, 0, List.replicate 2 0⟩ :=
  (multifile_ext_guard [[1, 2], [3, 4]] 2 3).2.1

/-! ## C3: resuming the multi-file iterator from its persisted cursor -/

/-- Auxiliary: a successful multi-file lane fill consumes exactly `need`
tokens, leaves the buffer advanced by `need`, and requires at least
`need + 1` buffered tokens. -/
theorem mfFillLane_success : ∀ (fuel : Nat) (buf : List Int) (need : Nat)
    (d t : List Int) (c : Nat) (b2 : List Int),
    need < fuel → 1 ≤ need →
    mfFillLane fuel buf need = (true, d, t, c, b2) →
    c = need ∧ b2 = buf.drop need ∧ need + 1 ≤ buf.length := by
  intro fuel
  induction fuel with
  | zero => intro buf need d t c b2 h1 _ _; omega
  | succ fuel ih =>
      intro buf need d t c b2 h1 h2 h
      simp only [mfFillLane] at h
      rw [if_neg (by omega : ¬ need = 0)] at h
      by_cases hb : buf.length ≤ 1
      · rw [if_pos hb] at h
        exact absurd h (by simp)
      · rw [if_neg hb] at h
        obtain ⟨n, hn⟩ : ∃ n, min (buf.length - 1) need = n := ⟨_, rfl⟩
        rw [hn] at h
        have hn1 : 1 ≤ n := by omega
        have hnb : n ≤ buf.length - 1 := by omega
        have hnn : n ≤ need := by omega
        by_cases hz : need - n = 0
        · obtain ⟨fuel2, hf2⟩ : ∃ fuel2, fuel = fuel2 + 1 := ⟨fuel - 1, by omega⟩
          subst hf2
          rw [hz] at h
          simp only [mfFillLane, reduceIte] at h
          simp only [Prod.mk.injEq] at h
          obtain ⟨_, _, _, hc, hb2⟩ := h
          have hne : n = need := by omega
          subst hc hb2
          exact ⟨by omega, by rw [hne], by omega⟩
        · cases hres : mfFillLane fuel (buf.drop n) (need - n) with
          | mk ok q =>
              obtain ⟨d1, t1, c1, b1⟩ := q
              rw [hres] at h
              simp only [Prod.mk.injEq] at h
              obtain ⟨hok, _, _, hc, hb2⟩ := h
              obtain ⟨r1, r2, r3⟩ := ih (buf.drop n) (need - n) d1 t1 c1 b1
                (by omega) (by omega) (by rw [hres, ← hok])
              have hlen : (buf.drop n).length = buf.length - n := List.length_drop _ _
              refine ⟨by omega, ?_, by omega⟩
              rw [← hb2, r2, List.drop_drop]
              congr 1
              omega

/-- Auxiliary: a successful multi-file batch fill advances every lane's
buffer and offset by exactly `bptt`. -/
theorem mfFillAll_success : ∀ (streams : List (List Int)) (offs : List Nat)
    (bptt : Nat) (ds ts streams2 : List (List Int)) (offs2 : List Nat),
    1 ≤ bptt → offs.length = streams.length →
    mfFillAll streams offs bptt = (true, ds, ts, streams2, offs2) →
    streams2 = streams.map (fun b => b.drop bptt) ∧
    offs2 = offs.map (fun o => o + bptt) ∧
    ds.length = streams.length := by
  intro streams
  induction streams with
  | nil =>
      intro offs bptt ds ts streams2 offs2 hp hlen h
      have hoffs : offs = [] := List.length_eq_zero.mp hlen
      subst hoffs
      simp only [mfFillAll, Prod.mk.injEq] at h
      obtain ⟨_, hds, _, hst, hoffs2⟩ := h
      subst hds hst hoffs2
      exact ⟨rfl, rfl, rfl⟩
  | cons buf bufs ih =>
      intro offs bptt ds ts streams2 offs2 hp hlen h
      cases offs with
      | nil => exact absurd hlen (by simp)
      | cons o otail =>
          rw [mfFillAll] at h
          cases hres : mfFillLane (bptt + 1) buf bptt with
          | mk ok q =>
              obtain ⟨d, t, c, buf2⟩ := q
              rw [hres] at h
              cases ok with
              | false =>
                  simp only [Prod.mk.injEq] at h
                  exact absurd h.1 (by simp)
              | true =>
                  cases hres2 : mfFillAll bufs (o :: otail).tail bptt with
                  | mk ok2 q2 =>
                      obtain ⟨ds1, ts1, bufs2, offs3⟩ := q2
                      rw [hres2] at h
                      simp only [Prod.mk.injEq] at h
                      obtain ⟨hok2, hds, hts, hst, hoffs2⟩ := h
                      obtain ⟨hc, hb2, _⟩ := mfFillLane_success (bptt + 1) buf bptt
                        d t c buf2 (by omega) hp hres
                      obtain ⟨i1, i2, i3⟩ := ih otail bptt ds1 ts1 bufs2 offs3 hp
                        (by simpa using hlen) (by rw [hok2] at hres2; exact hres2)
                      subst hds hst hoffs2
                      refine ⟨?_, ?_, ?_⟩
                      · rw [List.map_cons, ← hb2, i1]
                      · simp only [List.map_cons, List.headD_cons, ← hc, i2]
                      · simp [i3]

/-- Auxiliary: a multi-file batch fill, successful or not, preserves the
number of lanes in the returned buffers and offsets. -/
theorem mfFillAll_lengths : ∀ (streams : List (List Int)) (offs : List Nat)
    (bptt : Nat), offs.length = streams.length →
    (mfFillAll streams offs bptt).2.2.2.1.length = streams.length ∧
    (mfFillAll streams offs bptt).2.2.2.2.length = streams.length := by
  intro streams
  induction streams with
  | nil =>
      intro offs bptt _
      simp [mfFillAll]
  | cons buf bufs ih =>
      intro offs bptt hlen
      cases offs with
      | nil => exact absurd hlen (by simp)
      | cons o otail =>
          rw [mfFillAll]
          simp only [List.tail_cons, List.headD_cons]
          cases hres : mfFillLane (bptt + 1) buf bptt with
          | mk ok q =>
              obtain ⟨d, t, c, buf2⟩ := q
              cases ok with
              | false =>
                  constructor
                  · simp
                  · simp
                    simpa using hlen
              | true =>
                  cases hres2 : mfFillAll bufs otail bptt with
                  | mk ok2 q2 =>
                      obtain ⟨ds1, ts1, bufs2, offs3⟩ := q2
                      have hih := ih otail bptt (by simpa using hlen)
                      rw [hres2] at hih
                      simp only at hih
                      simp [hih.1, hih.2]

/-- Auxiliary: advancing all offsets by `bptt` advances every recomputed
lane stream by `bptt`. -/
theorem mfStreams_shift (file : List Int) (bsz bptt : Nat) (offs : List Nat)
    (h : offs.length = bsz) :
    mfStreams file bsz (offs.map (fun o => o + bptt))
      = (mfStreams file bsz offs).map (fun b => b.drop bptt) := by
  rw [mfStreams, mfStreams, List.map_map]
  apply List.map_congr_left
  intro pos hpos
  have hp : pos < offs.length := by rw [h]; exact List.mem_range.mp hpos
  have hp2 : pos < (offs.map (fun o => o + bptt)).length := by
    rw [List.length_map]; exact hp
  simp only [Function.comp]
  rw [List.getD_eq_getElem _ 0 hp2, List.getD_eq_getElem _ 0 hp, List.getElem_map]
  rw [List.drop_drop]

/-- Auxiliary: a successful batch fill needs at least `bptt + 1` tokens in
lane 0's buffer. -/
theorem mfFillAll_head_success (b0 : List Int) (rest : List (List Int))
    (offs : List Nat) (bptt : Nat) (hp : 1 ≤ bptt)
    (h : (mfFillAll (b0 :: rest) offs bptt).1 = true) : bptt + 1 ≤ b0.length := by
  rw [mfFillAll] at h
  cases hl : mfFillLane (bptt + 1) b0 bptt with
  | mk ok q =>
      obtain ⟨d, t, c, buf2⟩ := q
      rw [hl] at h
      cases ok with
      | false => simp at h
      | true =>
          cases hres2 : mfFillAll rest offs.tail bptt with
          | mk ok2 q2 =>
              exact (mfFillLane_success (bptt + 1) b0 bptt d t c buf2
                (by omega) hp hl).2.2

/-- Auxiliary: the per-file loop's final offsets keep one entry per lane. -/
theorem mfFileLoop_fin_length (bptt ext_len fileNum : Nat) :
    ∀ (fuel : Nat) (streams : List (List Int)) (offs : List Nat)
      (retained : List (List Int)), offs.length = streams.length →
    (mfFileLoop fuel streams offs retained bptt ext_len fileNum).2.length
      = offs.length := by
  intro fuel
  induction fuel with
  | zero => intro streams offs retained _; rfl
  | succ fuel ih =>
      intro streams offs retained hlen
      obtain ⟨hs2, ho2⟩ := mfFillAll_lengths streams offs bptt hlen
      cases hres : mfFillAll streams offs bptt with
      | mk ok q =>
          obtain ⟨ds, ts, streams2, offs2⟩ := q
          rw [hres] at hs2 ho2
          simp only at hs2 ho2
          rw [mfFileLoop]
          cases ok with
          | false =>
              simp only [hres, if_false, Bool.false_eq_true]
              omega
          | true =>
              simp only [hres, if_true]
              rw [ih streams2 offs2 _ (by omega)]
              omega

/-- Auxiliary: the per-file loop's output does not depend on the fuel, as
long as the fuel exceeds lane 0's buffered token count (every batch consumes
`bptt ≥ 1` of lane 0's tokens, and termination by `StopIteration` is
fuel-independent). -/
theorem mfFileLoop_stable (bptt ext_len fileNum : Nat) (hp : 1 ≤ bptt) :
    ∀ (fuel1 fuel2 : Nat) (streams : List (List Int)) (offs : List Nat)
      (retained : List (List Int)),
    streams ≠ [] → offs.length = streams.length →
    (streams.headD []).length < fuel1 → (streams.headD []).length < fuel2 →
    mfFileLoop fuel1 streams offs retained bptt ext_len fileNum
      = mfFileLoop fuel2 streams offs retained bptt ext_len fileNum := by
  intro fuel1
  induction fuel1 with
  | zero => intro fuel2 streams offs retained _ _ h1 _; omega
  | succ fuel1 ih =>
      intro fuel2 streams offs retained hne hlen h1 h2
      obtain ⟨f2, hf2⟩ : ∃ f2, fuel2 = f2 + 1 := ⟨fuel2 - 1, by omega⟩
      subst hf2
      cases hres : mfFillAll streams offs bptt with
      | mk ok q =>
          obtain ⟨ds, ts, streams2, offs2⟩ := q
          rw [mfFileLoop, mfFileLoop]
          cases ok with
          | false => simp only [hres, if_false, Bool.false_eq_true]
          | true =>
              simp only [hres, if_true]
              obtain ⟨b0, brest, hb0⟩ : ∃ b0 brest, streams = b0 :: brest := by
                cases streams with
                | nil => exact absurd rfl hne
                | cons x xs => exact ⟨x, xs, rfl⟩
              subst hb0
              have hlane0 : bptt + 1 ≤ b0.length :=
                mfFillAll_head_success b0 brest offs bptt hp (by rw [hres])
              obtain ⟨hst2, hof2, _⟩ := mfFillAll_success (b0 :: brest) offs bptt
                ds ts streams2 offs2 hp hlen hres
              have hne2 : streams2 ≠ [] := by
                rw [hst2]
                simp
              have hlen2 : offs2.length = streams2.length := by
                rw [hst2, hof2]
                simp [hlen]
              have hhead2 : (streams2.headD []).length < fuel1 := by
                rw [hst2]
                simp only [List.map_cons, List.headD_cons]
                rw [List.length_drop]
                simp only [List.headD_cons] at h1
                omega
              have hhead2b : (streams2.headD []).length < f2 := by
                rw [hst2]
                simp only [List.map_cons, List.headD_cons]
                rw [List.length_drop]
                simp only [List.headD_cons] at h2
                omega
              rw [ih f2 streams2 offs2 _ hne2 hlen2 hhead2 hhead2b]

/-- Auxiliary: with extended context 0 the retained rows after any batch
are empty again (`n_retain = min(data.size(0), 0) = 0`). -/
theorem retained_ext0 (input : List (List Int)) :
    input.map (fun col => col.drop (col.length - min col.length 0))
      = List.replicate input.length [] := by
  have h1 : ∀ b ∈ input.map (fun col => col.drop (col.length - min col.length 0)),
      b = ([] : List Int) := by
    intro b hb
    obtain ⟨col, _, rfl⟩ := List.mem_map.mp hb
    simp
  have h2 := List.eq_replicate_of_mem h1
  rw [List.length_map] at h2
  exact h2

/-- Auxiliary: the per-file loop resumes from the cursor recorded with any
of its entries: recomputing the lane streams from the recorded offsets and
restarting with fresh fuel reproduces exactly the remaining entries and the
same final offsets (extended context 0, as the constructor enforces). -/
theorem mfFileLoop_resume (file : List Int) (bsz bptt fileNum : Nat)
    (hb : 1 ≤ bsz) (hp : 1 ≤ bptt) :
    ∀ (fuel : Nat) (offs : List Nat) (k : Nat)
      (entries : List (SBatch × Nat × List Nat)) (fin : List Nat),
    offs.length = bsz →
    ((mfStreams file bsz offs).headD []).length < fuel →
    mfFileLoop fuel (mfStreams file bsz offs) offs (List.replicate bsz [])
        bptt 0 fileNum = (entries, fin) →
    k < entries.length →
    (entries.getD k default).2.1 = fileNum ∧
    (entries.getD k default).2.2.length = bsz ∧
    mfFileLoop
        (((mfStreams file bsz (entries.getD k default).2.2).headD []).length + 1)
        (mfStreams file bsz (entries.getD k default).2.2)
        (entries.getD k default).2.2 (List.replicate bsz []) bptt 0 fileNum
      = (entries.drop (k + 1), fin) := by
  intro fuel
  induction fuel with
  | zero => intro offs k entries fin _ h2 _ _; omega
  | succ fuel ih =>
      intro offs k entries fin hlen hfuel hrun hk
      cases hres : mfFillAll (mfStreams file bsz offs) offs bptt with
      | mk ok q =>
          obtain ⟨ds, ts, streams2, offs2⟩ := q
          rw [mfFileLoop] at hrun
          cases ok with
          | false =>
              simp only [hres, if_false, Bool.false_eq_true] at hrun
              simp only [Prod.mk.injEq] at hrun
              rw [← hrun.1] at hk
              simp at hk
          | true =>
              simp only [hres, if_true] at hrun
              have hslen : (mfStreams file bsz offs).length = bsz := by
                simp [mfStreams]
              obtain ⟨hst2, hof2, hds⟩ := mfFillAll_success _ offs bptt ds ts
                streams2 offs2 hp (by rw [hslen, hlen]) hres
              have hshift : streams2 = mfStreams file bsz offs2 := by
                rw [hst2, hof2, mfStreams_shift file bsz bptt offs hlen]
              have hof2len : offs2.length = bsz := by
                rw [hof2, List.length_map, hlen]
              have hretained :
                  (List.zipWith (fun a d => a ++ d) (List.replicate bsz []) ds).map
                      (fun col => col.drop (col.length - min col.length 0))
                    = List.replicate bsz ([] : List Int) := by
                rw [retained_ext0]
                congr 1
                rw [List.length_zipWith, List.length_replicate, hds, hslen]
                simp
              obtain ⟨b0, brest, hb0⟩ : ∃ b0 brest,
                  mfStreams file bsz offs = b0 :: brest := by
                cases hms : mfStreams file bsz offs with
                | nil =>
                    exfalso
                    rw [hms] at hslen
                    simp at hslen
                    omega
                | cons x xs => exact ⟨x, xs, rfl⟩
              have hlane0 : bptt + 1 ≤ b0.length :=
                mfFillAll_head_success b0 brest offs bptt hp (by rw [← hb0, hres])
              have hhead : ((mfStreams file bsz offs2).headD []).length < fuel := by
                rw [← hshift, hst2, hb0]
                simp only [List.map_cons, List.headD_cons, List.length_drop]
                rw [hb0] at hfuel
                simp only [List.headD_cons] at hfuel
                omega
              rw [hretained] at hrun
              cases hrest : mfFileLoop fuel streams2 offs2 (List.replicate bsz [])
                  bptt 0 fileNum with
              | mk rest fin2 =>
                  rw [hrest] at hrun
                  simp only [Prod.mk.injEq] at hrun
                  obtain ⟨rfl, hfin⟩ := hrun
                  rw [hshift] at hrest
                  have hne2 : mfStreams file bsz offs2 ≠ [] :=
                    List.ne_nil_of_length_pos (by
                      rw [mfStreams]
                      simp
                      omega)
                  have hlen2 : offs2.length = (mfStreams file bsz offs2).length := by
                    rw [mfStreams]
                    simp [hof2len]
                  cases k with
                  | zero =>
                      simp only [List.getD_cons_zero, List.drop_succ_cons,
                        List.drop_zero]
                      refine ⟨trivial, hof2len, ?_⟩
                      rw [mfFileLoop_stable bptt 0 fileNum hp _ fuel
                        (mfStreams file bsz offs2) offs2 (List.replicate bsz [])
                        hne2 hlen2 (by omega) hhead]
                      rw [hrest, hfin]
                  | succ k2 =>
                      have hk2 : k2 < rest.length := by
                        simpa using Nat.lt_of_succ_lt_succ hk
                      have hih := ih offs2 k2 rest fin2 hof2len hhead hrest hk2
                      simp only [List.getD_cons_succ, List.drop_succ_cons]
                      rw [hfin] at hih
                      exact hih

/-- Auxiliary: the whole multi-file run resumes from the cursor recorded
with any entry: a fresh run whose file index and lane offsets are the
recorded ones reproduces exactly the remaining entries. -/
theorem mfRunFrom_resume (paths : List (List Int)) (bsz bptt : Nat)
    (hb : 1 ≤ bsz) (hp : 1 ≤ bptt) :
    ∀ (remaining fileNum : Nat) (offs : List Nat) (k : Nat),
    remaining = paths.length - fileNum →
    offs.length = bsz →
    k < (mfRunFrom paths bsz bptt 0 remaining fileNum offs).length →
    mfRunFrom paths bsz bptt 0
        (paths.length -
          ((mfRunFrom paths bsz bptt 0 remaining fileNum offs).getD k default).2.1)
        ((mfRunFrom paths bsz bptt 0 remaining fileNum offs).getD k default).2.1
        ((mfRunFrom paths bsz bptt 0 remaining fileNum offs).getD k default).2.2
      = (mfRunFrom paths bsz bptt 0 remaining fileNum offs).drop (k + 1) := by
  intro remaining
  induction remaining with
  | zero =>
      intro fileNum offs k _ _ hk
      exact absurd hk (by simp [mfRunFrom])
  | succ r ih =>
      intro fileNum offs k hrem hlen hk
      rw [mfRunFrom] at hk ⊢
      cases hfl : mfFileLoop
          (((mfStreams (paths.getD fileNum []) bsz offs).headD []).length + 1)
          (mfStreams (paths.getD fileNum []) bsz offs) offs
          (List.replicate bsz []) bptt 0 fileNum with
      | mk entries fin =>
          rw [hfl] at hk
          simp only at hk ⊢
          have hslen : (mfStreams (paths.getD fileNum []) bsz offs).length = bsz := by
            simp [mfStreams]
          have hfinlen : fin.length = bsz := by
            have h1 := mfFileLoop_fin_length bptt 0 fileNum
              (((mfStreams (paths.getD fileNum []) bsz offs).headD []).length + 1)
              (mfStreams (paths.getD fileNum []) bsz offs) offs
              (List.replicate bsz []) (by rw [hslen, hlen])
            rw [hfl] at h1
            simp only at h1
            rw [h1, hlen]
          have hfnum : fileNum < paths.length := by omega
          rcases Nat.lt_or_ge k entries.length with hk1 | hk1
          · obtain ⟨htag, hklen, hres⟩ := mfFileLoop_resume (paths.getD fileNum [])
              bsz bptt fileNum hb hp _ offs k entries fin hlen (by omega) hfl hk1
            have hgetD : (entries ++ mfRunFrom paths bsz bptt 0 r (fileNum + 1) fin).getD
                k default = entries.getD k default := by
              have hkl : k < (entries ++
                  mfRunFrom paths bsz bptt 0 r (fileNum + 1) fin).length := by
                rw [List.length_append]
                omega
              rw [List.getD_eq_getElem _ default hkl,
                List.getD_eq_getElem _ default hk1]
              exact List.getElem_append_left hk1
            rw [hgetD, htag]
            have hpl : paths.length - fileNum = r + 1 := by omega
            rw [hpl, mfRunFrom, hres]
            rw [List.drop_append_eq_append_drop]
            rw [Nat.sub_eq_zero_of_le (by omega : k + 1 ≤ entries.length),
              List.drop_zero]
          · have hk2 : k - entries.length <
                (mfRunFrom paths bsz bptt 0 r (fileNum + 1) fin).length := by
              rw [List.length_append] at hk
              omega
            have hih := ih (fileNum + 1) fin (k - entries.length)
              (by omega) hfinlen hk2
            have hgetD : (entries ++ mfRunFrom paths bsz bptt 0 r (fileNum + 1) fin).getD
                k default
                = (mfRunFrom paths bsz bptt 0 r (fileNum + 1) fin).getD
                  (k - entries.length) default := by
              have hkl : k < (entries ++
                  mfRunFrom paths bsz bptt 0 r (fileNum + 1) fin).length := by
                rw [List.length_append]
                omega
              rw [List.getD_eq_getElem _ default hkl,
                List.getD_eq_getElem _ default hk2]
              exact List.getElem_append_right hk1
            rw [hgetD]
            rw [List.drop_append_eq_append_drop]
            rw [List.drop_eq_nil_of_le (by omega : entries.length ≤ k + 1)]
            have harith : k + 1 - entries.length = (k - entries.length) + 1 := by omega
            rw [harith, List.nil_append]
            exact hih

/-- C3: with shuffle disabled, after consuming any prefix of the batch
sequence (including stopping mid-file), a fresh `LMMultiFileIterator` over
the same paths whose persisted cursor `(file_offset, stream_offsets)` is
set to the values the original recorded with its last consumed batch yields
exactly the remaining sequence of batches (cursors included), bit for bit.
The hypothesis `bsz ≤ len(file)` keeps every file's `sents.split(len//bsz)`
well defined, the domain on which the embedding is faithful; `ext_len` is 0
as the constructor enforces (C9). -/
theorem multifile_resume (paths : List (List Int)) (bsz bptt k : Nat)
    (hb : 1 ≤ bsz) (hp : 1 ≤ bptt)
    (hfiles : ∀ f ∈ paths, bsz ≤ f.length)
    (hk : k < (LMMultiFileIterator.iter
      ⟨paths, bsz, bptt, 0, 0, List.replicate bsz 0⟩).length) :
    LMMultiFileIterator.iter
        ⟨paths, bsz, bptt, 0,
          ((LMMultiFileIterator.iter
            ⟨paths, bsz, bptt, 0, 0, List.replicate bsz 0⟩).getD k default).2.1,
          ((LMMultiFileIterator.iter
            ⟨paths, bsz, bptt, 0, 0, List.replicate bsz 0⟩).getD k default).2.2⟩
      = (LMMultiFileIterator.iter
          ⟨paths, bsz, bptt, 0, 0, List.replicate bsz 0⟩).drop (k + 1) := by
  simp only [LMMultiFileIterator.iter] at hk ⊢
  exact mfRunFrom_resume paths bsz bptt hb hp (paths.length - 0) 0
    (List.replicate bsz 0) k rfl (by simp) hk

/-- Witness for C3: two 5-token files, one lane, `bptt = 2`, resumed after
the first batch. -/
theorem multifile_resume_witness :
    LMMultiFileIterator.iter
        ⟨[[0, 1, 2, 3, 4], [5, 6, 7, 8, 9]], 1, 2, 0,
          ((LMMultiFileIterator.iter
            ⟨[[0, 1, 2, 3, 4], [5, 6, 7, 8, 9]], 1, 2, 0, 0,
              List.replicate 1 0⟩).getD 0 default).2.1,
          ((LMMultiFileIterator.iter
            ⟨[[0, 1, 2, 3, 4], [5, 6, 7, 8, 9]], 1, 2, 0, 0,
              List.replicate 1 0⟩).getD 0 default).2.2⟩
      = (LMMultiFileIterator.iter
          ⟨[[0, 1, 2, 3, 4], [5, 6, 7, 8, 9]], 1, 2, 0, 0,
            List.replicate 1 0⟩).drop (0 + 1) :=
  multifile_resume [[0, 1, 2, 3, 4], [5, 6, 7, 8, 9]] 1 2 0
    (by decide) (by decide) (by decide) (by decide)

end TXL
